import Mathlib

/-!
Verification of the `ConvolutionalReverb` processor of `pymixconsole`
(`pymixconsole/processors/convreverb.py`), a partitioned frequency-domain
convolution reverb.

Shallow embedding conventions:
* PCM samples and gain values are exact rationals (`ℚ`); complex frequency-domain
  values are pairs of rationals (`CQ`).
* The external NumPy transforms `np.fft.fft` / `np.fft.ifft` (applied along axis 0,
  i.e. per channel) are abstract parameters `fft1 ifft1 : List ℚ → List CQ` /
  `List CQ → List CQ`; every theorem holds for an arbitrary transform, with
  length-preservation (`∀ v, (fft1 v).length = v.length`) assumed where the
  NumPy shape discipline matters.
* The transcendental gain `0.1 ** e` (for a rational exponent `e`) is an abstract
  parameter `gpow : ℚ → ℚ` applied to the exponent; the exponent arithmetic
  itself is modelled exactly.
* `wavfile.read` is an abstract parameter `readFile : String → ℕ × List (ℤ × ℤ)`
  returning the file's sample rate and its 16-bit integer stereo samples.
* Python `int()` (truncation toward zero) is `pyInt`; NumPy slice arithmetic is
  modelled on `List`.
-/

namespace PyMixConsole

/-- A complex number with rational components, standing for the exact value of a
NumPy complex double. -/
structure CQ where
  re : ℚ
  im : ℚ
deriving DecidableEq, Repr

def CQ.zero : CQ := ⟨0, 0⟩

def CQ.add (x y : CQ) : CQ := ⟨x.re + y.re, x.im + y.im⟩

def CQ.mul (x y : CQ) : CQ := ⟨x.re * y.re - x.im * y.im, x.re * y.im + x.im * y.re⟩

/-- A time-domain stereo signal: one (left, right) sample pair per frame. -/
abbrev StereoR := List (ℚ × ℚ)

/-- A frequency-domain stereo signal: one (left, right) bin pair per frequency. -/
abbrev StereoC := List (CQ × CQ)

/-- An all-zero time-domain stereo buffer of `n` frames (`np.zeros((n, 2))`). -/
def zeroR (n : ℕ) : StereoR := List.replicate n ((0 : ℚ), (0 : ℚ))

/-- Elementwise sum of two stereo buffers (NumPy `+` on equal shapes). -/
def addR (a b : StereoR) : StereoR :=
  a.zipWith (fun u v => (u.1 + v.1, u.2 + v.2)) b

/-- Scale every sample of a stereo buffer by a gain (NumPy `*=` with a scalar). -/
def scaleR (g : ℚ) (a : StereoR) : StereoR :=
  a.map (fun u => (u.1 * g, u.2 * g))

/-- An all-zero frequency-domain stereo buffer of `n` bins. -/
def zeroC (n : ℕ) : StereoC := List.replicate n (CQ.zero, CQ.zero)

/-- Elementwise complex sum of two frequency-domain buffers. -/
def addC (a b : StereoC) : StereoC :=
  a.zipWith (fun u v => (CQ.add u.1 v.1, CQ.add u.2 v.2)) b

/-- Elementwise complex product of two frequency-domain buffers
(NumPy `*` on equal shapes). -/
def mulC (a b : StereoC) : StereoC :=
  a.zipWith (fun u v => (CQ.mul u.1 v.1, CQ.mul u.2 v.2)) b

/-- Apply a per-channel forward transform to a stereo buffer
(`np.fft.fft(x, axis=0)` on a real-valued array). -/
def fftS (fft1 : List ℚ → List CQ) (s : StereoR) : StereoC :=
  (fft1 (s.map Prod.fst)).zip (fft1 (s.map Prod.snd))

/-- Apply a per-channel inverse transform to a stereo buffer
(`np.fft.ifft(Y, axis=0)`). -/
def ifftS (ifft1 : List CQ → List CQ) (s : StereoC) : StereoC :=
  (ifft1 (s.map Prod.fst)).zip (ifft1 (s.map Prod.snd))

/-- Real part of every bin of a stereo complex buffer (`np.real`). -/
def reS (s : StereoC) : StereoR := s.map (fun u => (u.1.re, u.2.re))

/-- The parameter values consumed by the reverb
(`bypass`, `type`, `decay`, `dry_mix`, `wet_mix`). -/
structure RParams where
  bypass : Bool
  type : String
  decay : ℚ
  dry_mix : ℚ
  wet_mix : ℚ

/-- The mutable state of a `ConvolutionalReverb` instance: `block_size`,
`sample_rate`, the `impulses` cache, the partitioned impulse `h`, the
frequency-domain filter bank `H`, the history ring `X` and the `overlap`
buffer. -/
structure RState where
  blockSize : ℕ
  sampleRate : ℕ
  impulses : List (String × StereoR)
  h : List StereoR
  H : List StereoC
  X : List StereoC
  overlap : StereoR

/-- An input block as passed to `process`: either a 1-D mono array `(n,)` or a
stereo array `(n, 2)`. -/
inductive InBlock where
  | mono : List ℚ → InBlock
  | stereo : StereoR → InBlock
deriving DecidableEq

/-- Channel normalization at the head of `process`: a mono block grows a stereo
dimension (`np.expand_dims`) and its channel is copied left-to-right
(`np.repeat`). -/
def normalize (x : InBlock) : StereoR :=
  match x with
  | .mono v => v.map (fun a => (a, a))
  | .stereo v => v

/-- `np.roll(X, 1, axis=2)`: circular shift of the history ring by one slot, the
last partition wrapping around to slot 0. -/
def rollOne (X : List StereoC) : List StereoC :=
  match X.getLast? with
  | none => []
  | some v => v :: X.dropLast

/-- Roll the history ring and overwrite slot 0 with the newest transformed
frame (`self.X = np.roll(...)` followed by `self.X[:,:,0] = np.fft.fft(x)`). -/
def ringShift (v : StereoC) (X : List StereoC) : List StereoC :=
  (rollOne X).set 0 v

/-- `Y = np.sum(self.X * self.H, axis=2)`: accumulate the elementwise complex
product of history-ring slot `k` and filter-bank partition `k` over all `k`,
per frequency bin and channel.  The accumulator starts from the all-zero
`2 * blockSize`-bin buffer. -/
def accum (B : ℕ) (X H : List StereoC) : StereoC :=
  ((X.zip H).map (fun p => mulC p.1 p.2)).foldr addC (zeroC (2 * B))

/-- `ConvolutionalReverb.process`: returns the output block and the successor
state.  Mirrors the source line by line: bypass passthrough; channel
normalization; zero-padding by `block_size` frames; ring shift and insertion of
the transformed frame; pointwise multiply–accumulate against the filter bank;
inverse transform and real part; overlap-add; overlap store; wet/dry gains and
mix. -/
def process (fft1 : List ℚ → List CQ) (ifft1 : List CQ → List CQ)
    (p : RParams) (s : RState) (x : InBlock) : InBlock × RState :=
  if p.bypass then (x, s)
  else
    let xn := normalize x
    let xp := xn ++ zeroR s.blockSize
    let X1 := ringShift (fftS fft1 xp) s.X
    let Y := accum s.blockSize X1 s.H
    let y := reS (ifftS ifft1 Y)
    let wet := addR (y.take s.blockSize) s.overlap
    let dry := xp.take s.blockSize
    let ov := y.drop s.blockSize
    let out := addR (scaleR p.wet_mix wet) (scaleR p.dry_mix dry)
    (InBlock.stereo out, { s with X := X1, overlap := ov })

/-- Python `int()`: truncation toward zero of a rational. -/
def pyInt (q : ℚ) : ℤ := if 0 ≤ q then ⌊q⌋ else ⌈q⌉

/-- `int(0.020 * self.sample_rate)`: the fixed 20 ms fade window in samples. -/
def fadeSamples (SR : ℕ) : ℤ := pyInt ((2 : ℚ) / 100 * SR)

/-- `fstart = int(self.parameters.decay.value * self.h.shape[0])`. -/
def fadeStart (decay : ℚ) (L : ℕ) : ℤ := pyInt (decay * L)

/-- `fstop = np.min((self.h.shape[0], fstart + int(0.020 * self.sample_rate)))`. -/
def fadeStop (SR : ℕ) (decay : ℚ) (L : ℕ) : ℤ :=
  min (L : ℤ) (fadeStart decay L + fadeSamples SR)

/-- The fade gain for normalized index `i` of a window of length `flen`:
`np.power(0.1, (1 - i/flen) * 5)`, with `0.1 ** e` abstracted as `gpow e`. -/
def fadeGain (gpow : ℚ → ℚ) (flen : ℕ) (i : ℕ) : ℚ :=
  gpow ((1 - (i : ℚ) / (flen : ℚ)) * 5)

/-- The decay-shaping stage of `update`: when `flen = fstop - fstart > 0`,
multiply the samples of the window `[fstart, fstop)` of both channels by the
fade gains and truncate the impulse to `fstop`; otherwise leave the impulse
unchanged.  Indices are taken in `ℕ`: for `decay < 0` (outside the parameter's
declared range) the NumPy code addresses `h[fstart:fstop]` with a negative
start and raises a broadcast error, a path not modelled here. -/
def shapeImpulse (gpow : ℚ → ℚ) (SR : ℕ) (decay : ℚ) (h0 : StereoR) : StereoR :=
  if 0 < fadeStop SR decay h0.length - fadeStart decay h0.length then
    (h0.mapIdx fun j u =>
      if (fadeStart decay h0.length).toNat ≤ j ∧
          j < (fadeStart decay h0.length).toNat +
            (fadeStop SR decay h0.length - fadeStart decay h0.length).toNat then
        (u.1 * fadeGain gpow
            (fadeStop SR decay h0.length - fadeStart decay h0.length).toNat
            (j - (fadeStart decay h0.length).toNat),
          u.2 * fadeGain gpow
            (fadeStop SR decay h0.length - fadeStart decay h0.length).toNat
            (j - (fadeStart decay h0.length).toNat))
      else u).take (fadeStop SR decay h0.length).toNat
  else h0

/-- `pad = self.block_size - (self.h.shape[0] % self.block_size)`. -/
def padAmount (B L : ℕ) : ℕ := B - L % B

/-- Partition `n` of the padded impulse: `block_size` frames starting at
`n * block_size`, zero-padded at the end to `2 * block_size` frames
(`np.pad(self.h[start:stop,:], ((0, self.block_size), (0, 0)))`). -/
def chop (B : ℕ) (hp : StereoR) (n : ℕ) : StereoR :=
  (hp.drop (n * B)).take B ++ zeroR B

/-- `ConvolutionalReverb.update` applied to the impulse `h0` found in the
cache: decay shaping, zero-padding to a multiple of `block_size`, partitioning
into `nfilters` blocks of `2 * block_size` frames, forward transform of every
partition into the filter bank `H`, and reinitialization of the history ring
`X` (transform of all-zero blocks) and of the `overlap` buffer (zeros). -/
def updateWith (fft1 : List ℚ → List CQ) (gpow : ℚ → ℚ)
    (p : RParams) (s : RState) (h0 : StereoR) : RState :=
  let hsh := shapeImpulse gpow s.sampleRate p.decay h0
  let hp := hsh ++ zeroR (padAmount s.blockSize hsh.length)
  let nfilters := hp.length / s.blockSize
  let parts := (List.range nfilters).map (chop s.blockSize hp)
  { s with
    h := parts
    H := parts.map (fftS fft1)
    X := List.replicate nfilters (fftS fft1 (zeroR (2 * s.blockSize)))
    overlap := zeroR s.blockSize }

/-- `ConvolutionalReverb.update`: look up the current preset's impulse in the
cache (`self.impulses[self.parameters.type.value]`, a `KeyError` — `none` — if
absent) and rebuild the engine state from it. -/
def update (fft1 : List ℚ → List CQ) (gpow : ℚ → ℚ)
    (p : RParams) (s : RState) : Option RState :=
  (s.impulses.lookup p.type).map (updateWith fft1 gpow p s)

/-- The module-level `src` table mapping preset names to impulse-response
file names. -/
def srcTable : List (String × String) :=
  [("sm-room", "small_room.wav"), ("md-room", "medium_room.wav"),
   ("lg-room", "large_room.wav"), ("hall", "hall.wav"), ("plate", "plate.wav")]

/-- `h.astype(np.double) / (2**16)` followed by `h *= 0.125`: convert 16-bit
integer samples to floats with headroom scaling. -/
def normSamples (raw : List (ℤ × ℤ)) : StereoR :=
  raw.map (fun u => ((u.1 : ℚ) / 2 ^ 16 * (1 / 8 : ℚ), (u.2 : ℚ) / 2 ^ 16 * (1 / 8 : ℚ)))

/-- The loop body of `ConvolutionalReverb.load`: for every preset name in
`options`, read the file `src[self.parameters.type.value]` — note the source
uses the currently selected type, not the loop variable `reverb`, to choose the
file — raise (`none`) if its sample rate differs from the processor's, and
store the normalized samples in the cache under the key `reverb`. -/
def loadLoop (readFile : String → ℕ × List (ℤ × ℤ)) (tyVal : String) (SR : ℕ) :
    List String → List (String × StereoR) → Option (List (String × StereoR))
  | [], acc => some acc
  | reverb :: rest, acc =>
    match srcTable.lookup tyVal with
    | none => none
    | some fname =>
      let r := readFile fname
      if r.1 ≠ SR then none
      else loadLoop readFile tyVal SR rest (acc ++ [(reverb, normSamples r.2)])

/-- `ConvolutionalReverb.load`: populate the impulse cache for every configured
preset option. -/
def load (readFile : String → ℕ × List (ℤ × ℤ)) (p : RParams)
    (options : List String) (s : RState) : Option RState :=
  (loadLoop readFile p.type s.sampleRate options s.impulses).map
    (fun imp => { s with impulses := imp })

/-- `ConvolutionalReverb.__init__`: start from an empty cache, `load()` all
impulses, then `update(None)`. -/
def construct (fft1 : List ℚ → List CQ) (gpow : ℚ → ℚ)
    (readFile : String → ℕ × List (ℤ × ℤ)) (p : RParams)
    (B SR : ℕ) (options : List String) : Option RState :=
  (load readFile p options ⟨B, SR, [], [], [], [], []⟩).bind (update fft1 gpow p)

/-- The history ring and the filter bank have identical shapes: the same
partition count and, slot by slot, the same number of frequency bins. -/
def sameShape (s : RState) : Prop :=
  s.X.map List.length = s.H.map List.length

/-- Every history-ring slot and every filter-bank partition holds exactly
`2 * blockSize` frequency bins. -/
def allLen2B (s : RState) : Prop :=
  (∀ b ∈ s.X, b.length = 2 * s.blockSize) ∧ (∀ b ∈ s.H, b.length = 2 * s.blockSize)

/-- The engine's shape invariant. -/
def shapeInv (s : RState) : Prop := sameShape s ∧ allLen2B s

/-! ### Concrete fixtures for closed evaluations -/

/-- A length-preserving concrete transform standing in for the abstract forward
transform in closed evaluations. -/
def embedC : List ℚ → List CQ := fun v => v.map (fun q => ⟨q, 0⟩)

/-- A concrete stand-in for the abstract inverse transform in closed
evaluations. -/
def idC : List CQ → List CQ := fun v => v

/-- A concrete stand-in for the abstract power function in closed
evaluations. -/
def onePow : ℚ → ℚ := fun _ => 1

/-- Concrete parameter values with bypass off. -/
def pActive : RParams := ⟨false, "sm-room", 1, 1, 1⟩

/-- Concrete parameter values with bypass on. -/
def pBypass : RParams := ⟨true, "sm-room", 1, 1, 1⟩

/-- A concrete engine state whose cache holds one impulse. -/
def sDemo : RState := ⟨1, 50, [("sm-room", [(1, 1), (2, 2)])], [], [], [], []⟩

/-- A concrete asset store: distinct sample data per file, all at 44100 Hz. -/
def demoFiles : String → ℕ × List (ℤ × ℤ) := fun fname =>
  if fname = "small_room.wav" then (44100, [(1, 1)])
  else if fname = "hall.wav" then (44100, [(2, 2)])
  else (44100, [])

/-- A concrete asset store in which the unselected preset's file (`hall.wav`)
has a sample rate different from the processor's 44100 Hz. -/
def demoRateMismatch : String → ℕ × List (ℤ × ℤ) := fun fname =>
  if fname = "small_room.wav" then (44100, [(1, 1)])
  else if fname = "hall.wav" then (22050, [(2, 2)])
  else (44100, [])

/-! ### Claims -/

/-- C9: for every input block and every setting of the other parameters, when
`bypass` is true `process` returns exactly the input block unchanged and the
state untouched — no channel normalization, padding, state update or mixing. -/
theorem process_bypass_passthrough (fft1 : List ℚ → List CQ) (ifft1 : List CQ → List CQ)
    (p : RParams) (s : RState) (x : InBlock) (hb : p.bypass = true) :
    process fft1 ifft1 p s x = (x, s) := by
  simp [process, hb]

theorem process_bypass_passthrough_witness :
    process embedC idC pBypass sDemo (InBlock.mono [3]) = (InBlock.mono [3], sDemo) :=
  process_bypass_passthrough embedC idC pBypass sDemo (InBlock.mono [3]) rfl

/-- C10: a `process` call with bypass false leaves the filter bank `H`, the
partitioned impulse `h`, the cached impulses dictionary, `block_size` and
`sample_rate` unchanged; only the history ring `X` and the overlap buffer may
differ in the successor state. -/
theorem process_frame_effect (fft1 : List ℚ → List CQ) (ifft1 : List CQ → List CQ)
    (p : RParams) (s : RState) (x : InBlock) (hb : p.bypass = false) :
    (process fft1 ifft1 p s x).2.H = s.H ∧
    (process fft1 ifft1 p s x).2.h = s.h ∧
    (process fft1 ifft1 p s x).2.impulses = s.impulses ∧
    (process fft1 ifft1 p s x).2.blockSize = s.blockSize ∧
    (process fft1 ifft1 p s x).2.sampleRate = s.sampleRate := by
  simp [process, hb]

theorem process_frame_effect_witness :
    (process embedC idC pActive sDemo (InBlock.mono [3])).2.H = sDemo.H ∧
    (process embedC idC pActive sDemo (InBlock.mono [3])).2.h = sDemo.h ∧
    (process embedC idC pActive sDemo (InBlock.mono [3])).2.impulses = sDemo.impulses ∧
    (process embedC idC pActive sDemo (InBlock.mono [3])).2.blockSize = sDemo.blockSize ∧
    (process embedC idC pActive sDemo (InBlock.mono [3])).2.sampleRate = sDemo.sampleRate :=
  process_frame_effect embedC idC pActive sDemo (InBlock.mono [3]) rfl

/-- C1: with bypass false, `process` returns `wet_mix` times the wet signal
plus `dry_mix` times the dry signal, where the wet signal is the first
`blockSize` frames of the real part of the inverse transform of
`Y = Σₖ X[k] * H[k]` (`X` being the history ring just after the current frame's
transform is inserted) added to the previous overlap buffer, the successor
overlap is the second `blockSize` frames of that inverse transform, and the dry
signal is the channel-normalized input block before zero-padding; the successor
history ring is the shifted ring. -/
theorem process_active_mix (fft1 : List ℚ → List CQ) (ifft1 : List CQ → List CQ)
    (p : RParams) (s : RState) (x : InBlock)
    (hb : p.bypass = false) (hxn : (normalize x).length = s.blockSize) :
    process fft1 ifft1 p s x =
      (InBlock.stereo (addR
          (scaleR p.wet_mix
            (addR ((reS (ifftS ifft1 (accum s.blockSize
                (ringShift (fftS fft1 (normalize x ++ zeroR s.blockSize)) s.X)
                s.H))).take s.blockSize)
              s.overlap))
          (scaleR p.dry_mix (normalize x))),
        { s with
          X := ringShift (fftS fft1 (normalize x ++ zeroR s.blockSize)) s.X
          overlap := (reS (ifftS ifft1 (accum s.blockSize
              (ringShift (fftS fft1 (normalize x ++ zeroR s.blockSize)) s.X)
              s.H))).drop s.blockSize }) := by
  have hdry : (normalize x ++ zeroR s.blockSize).take s.blockSize = normalize x :=
    List.take_left' hxn
  simp only [process, hb, Bool.false_eq_true, if_false, hdry]

theorem process_active_mix_witness :
    process embedC idC pActive sDemo (InBlock.mono [3]) =
      (InBlock.stereo (addR
          (scaleR pActive.wet_mix
            (addR ((reS (ifftS idC (accum sDemo.blockSize
                (ringShift (fftS embedC (normalize (InBlock.mono [3]) ++ zeroR sDemo.blockSize))
                  sDemo.X)
                sDemo.H))).take sDemo.blockSize)
              sDemo.overlap))
          (scaleR pActive.dry_mix (normalize (InBlock.mono [3])))),
        { sDemo with
          X := ringShift (fftS embedC (normalize (InBlock.mono [3]) ++ zeroR sDemo.blockSize))
            sDemo.X
          overlap := (reS (ifftS idC (accum sDemo.blockSize
              (ringShift (fftS embedC (normalize (InBlock.mono [3]) ++ zeroR sDemo.blockSize))
                sDemo.X)
              sDemo.H))).drop sDemo.blockSize }) :=
  process_active_mix embedC idC pActive sDemo (InBlock.mono [3]) rfl rfl

/-- C7 counterexample: the rebuild path does not clamp `decay`: with
`decay = 2` and an impulse of length `L = 1`, `update`'s fade-window start
`fadeStart` evaluates to `2`, which is not within `[0, L]`. -/
theorem fadeStart_unclamped_cex :
    fadeStart 2 1 = 2 ∧ ¬ fadeStart 2 1 ≤ (1 : ℤ) := by
  have h : fadeStart 2 1 = 2 := by
    rw [fadeStart, pyInt, if_pos (by norm_num)]
    norm_num
  exact ⟨h, by rw [h]; decide⟩

/-- C7 amended: the rebuild path uses the raw parameter values without
clamping; for every `decay` within the parameter's declared range `[0, 1]` the
fade-window indices `fadeStart` and `fadeStop` computed by `update` lie within
`[0, L]`. -/
theorem fadeWindow_in_range (SR L : ℕ) (decay : ℚ)
    (h0 : 0 ≤ decay) (h1 : decay ≤ 1) :
    0 ≤ fadeStart decay L ∧ fadeStart decay L ≤ (L : ℤ) ∧
    0 ≤ fadeStop SR decay L ∧ fadeStop SR decay L ≤ (L : ℤ) := by
  have hq : (0 : ℚ) ≤ decay * L := mul_nonneg h0 (Nat.cast_nonneg L)
  have hstart : fadeStart decay L = ⌊decay * (L : ℚ)⌋ := by
    rw [fadeStart, pyInt, if_pos hq]
  have hle : decay * L ≤ (L : ℚ) := by
    calc decay * L ≤ 1 * L := mul_le_mul_of_nonneg_right h1 (Nat.cast_nonneg L)
    _ = L := one_mul _
  have hfs0 : 0 ≤ fadeStart decay L := by
    rw [hstart]; exact Int.floor_nonneg.mpr hq
  have hfsL : fadeStart decay L ≤ (L : ℤ) := by
    rw [hstart]
    have h2 := Int.floor_le_floor hle
    rwa [Int.floor_natCast] at h2
  have hsamp : 0 ≤ fadeSamples SR := by
    have hq2 : (0 : ℚ) ≤ (2 : ℚ) / 100 * SR :=
      mul_nonneg (by norm_num) (Nat.cast_nonneg SR)
    rw [fadeSamples, pyInt, if_pos hq2]
    exact Int.floor_nonneg.mpr hq2
  refine ⟨hfs0, hfsL, ?_, min_le_left _ _⟩
  exact le_min (Int.ofNat_nonneg L) (add_nonneg hfs0 hsamp)

theorem fadeWindow_in_range_witness :
    0 ≤ fadeStart 1 2 ∧ fadeStart 1 2 ≤ (2 : ℤ) ∧
    0 ≤ fadeStop 50 1 2 ∧ fadeStop 50 1 2 ≤ (2 : ℤ) :=
  fadeWindow_in_range 50 2 1 zero_le_one le_rfl

/-- C6 is refuted by the code: the `load` loop computes the file name from the
currently selected `type` parameter instead of the loop variable, so with the
selected preset `"sm-room"` the cache entry keyed `"hall"` receives
`small_room.wav`'s (scaled) samples, which differ from `hall.wav`'s. -/
theorem load_reads_selected_file_for_every_key :
    loadLoop demoFiles "sm-room" 44100 ["sm-room", "hall"] [] =
      some [("sm-room", normSamples [(1, 1)]), ("hall", normSamples [(1, 1)])] ∧
    normSamples [(1, 1)] ≠ normSamples [(2, 2)] := by
  constructor
  · rfl
  · norm_num [normSamples]

/-- C8 is refuted by the code: because every `load` iteration reads the
selected preset's file, a sample-rate mismatch in an unselected preset's asset
(`hall.wav` at 22050 Hz here) raises no error — `load` completes
successfully. -/
theorem load_ignores_unselected_sample_rates :
    (loadLoop demoRateMismatch "sm-room" 44100 ["sm-room", "hall"] []).isSome = true ∧
    (demoRateMismatch "hall.wav").1 ≠ 44100 := by
  constructor
  · rfl
  · decide

/-- The padded impulse length is exactly one block more than `L` rounded down
to a multiple of the block size. -/
theorem padded_eq_mul (B L : ℕ) (hB : 0 < B) :
    L + padAmount B L = B * (L / B + 1) := by
  have h1 := Nat.div_add_mod L B
  have h2 : L % B < B := Nat.mod_lt _ hB
  rw [Nat.mul_succ, padAmount]
  omega

/-- C2: the rebuild pads the shaped impulse of length `L` with
`pad = B - (L % B)` zero frames, so the padded length is a multiple of `B` and
the partition count equals `paddedLength / B = L / B + 1` in every case; when
`L` is already a multiple of `B` a full extra block of padding is added and the
trailing partition is entirely zero. -/
theorem update_partition_count (fft1 : List ℚ → List CQ) (gpow : ℚ → ℚ)
    (p : RParams) (s : RState) (h0 : StereoR) (hB : 0 < s.blockSize) :
    ((shapeImpulse gpow s.sampleRate p.decay h0).length +
        padAmount s.blockSize (shapeImpulse gpow s.sampleRate p.decay h0).length) %
      s.blockSize = 0 ∧
    ((shapeImpulse gpow s.sampleRate p.decay h0).length +
        padAmount s.blockSize (shapeImpulse gpow s.sampleRate p.decay h0).length) /
      s.blockSize = (shapeImpulse gpow s.sampleRate p.decay h0).length / s.blockSize + 1 ∧
    (updateWith fft1 gpow p s h0).h.length =
      (shapeImpulse gpow s.sampleRate p.decay h0).length / s.blockSize + 1 ∧
    ((shapeImpulse gpow s.sampleRate p.decay h0).length % s.blockSize = 0 →
      padAmount s.blockSize (shapeImpulse gpow s.sampleRate p.decay h0).length = s.blockSize ∧
      (updateWith fft1 gpow p s h0).h.getLast? = some (zeroR (2 * s.blockSize))) := by
  set B := s.blockSize with hBdef
  set L := (shapeImpulse gpow s.sampleRate p.decay h0).length with hL
  have hmul := padded_eq_mul B L hB
  have hmod : (L + padAmount B L) % B = 0 := by rw [hmul]; exact Nat.mul_mod_right _ _
  have hdiv : (L + padAmount B L) / B = L / B + 1 := by
    rw [hmul]; exact Nat.mul_div_cancel_left _ hB
  have hlen : (updateWith fft1 gpow p s h0).h.length = (L + padAmount B L) / B := by
    simp [updateWith, zeroR, ← hL, ← hBdef]
  refine ⟨hmod, hdiv, by rw [hlen, hdiv], fun hz => ?_⟩
  have hpadB : padAmount B L = B := by rw [padAmount, hz, Nat.sub_zero]
  refine ⟨hpadB, ?_⟩
  have hdvd : L / B * B = L := Nat.div_mul_cancel (Nat.dvd_of_mod_eq_zero hz)
  have hrange : (updateWith fft1 gpow p s h0).h =
      (List.range (L / B)).map
        (chop B (shapeImpulse gpow s.sampleRate p.decay h0 ++ zeroR (padAmount B L))) ++
      [chop B (shapeImpulse gpow s.sampleRate p.decay h0 ++ zeroR (padAmount B L)) (L / B)] := by
    simp only [updateWith, ← hL, ← hBdef]
    rw [List.length_append, zeroR, List.length_replicate, ← hL, hdiv, List.range_succ,
      List.map_append, List.map_cons, List.map_nil]
  rw [hrange, List.getLast?_concat]
  have hchop : chop B (shapeImpulse gpow s.sampleRate p.decay h0 ++ zeroR (padAmount B L))
      (L / B) = zeroR (2 * B) := by
    rw [chop, hpadB, hdvd, List.drop_left' hL.symm, zeroR, List.take_replicate, min_self,
      List.append_replicate_replicate, two_mul]
    rfl
  rw [hchop]

theorem update_partition_count_witness :
    ((shapeImpulse onePow sDemo.sampleRate pActive.decay [(1, 1), (2, 2)]).length +
        padAmount sDemo.blockSize
          (shapeImpulse onePow sDemo.sampleRate pActive.decay [(1, 1), (2, 2)]).length) %
      sDemo.blockSize = 0 ∧
    ((shapeImpulse onePow sDemo.sampleRate pActive.decay [(1, 1), (2, 2)]).length +
        padAmount sDemo.blockSize
          (shapeImpulse onePow sDemo.sampleRate pActive.decay [(1, 1), (2, 2)]).length) /
      sDemo.blockSize =
      (shapeImpulse onePow sDemo.sampleRate pActive.decay [(1, 1), (2, 2)]).length /
        sDemo.blockSize + 1 ∧
    (updateWith embedC onePow pActive sDemo [(1, 1), (2, 2)]).h.length =
      (shapeImpulse onePow sDemo.sampleRate pActive.decay [(1, 1), (2, 2)]).length /
        sDemo.blockSize + 1 ∧
    ((shapeImpulse onePow sDemo.sampleRate pActive.decay [(1, 1), (2, 2)]).length %
        sDemo.blockSize = 0 →
      padAmount sDemo.blockSize
        (shapeImpulse onePow sDemo.sampleRate pActive.decay [(1, 1), (2, 2)]).length =
        sDemo.blockSize ∧
      (updateWith embedC onePow pActive sDemo [(1, 1), (2, 2)]).h.getLast? =
        some (zeroR (2 * sDemo.blockSize))) :=
  update_partition_count embedC onePow pActive sDemo [(1, 1), (2, 2)] Nat.one_pos

/-- C5: every `update` call replaces the history ring by one transform of an
all-zero block per partition of the newly built filter bank — the transform of
silence, with no residual data — and the overlap buffer by `blockSize` zero
frames. -/
theorem update_resets_state (fft1 : List ℚ → List CQ) (gpow : ℚ → ℚ)
    (p : RParams) (s s' : RState) (hu : update fft1 gpow p s = some s') :
    s'.X = List.replicate s'.H.length (fftS fft1 (zeroR (2 * s.blockSize))) ∧
    s'.overlap = zeroR s.blockSize := by
  obtain ⟨h0, -, rfl⟩ := Option.map_eq_some'.mp hu
  constructor
  · simp [updateWith]
  · rfl

theorem update_resets_state_witness :
    (updateWith embedC onePow pActive sDemo [(1, 1), (2, 2)]).X =
      List.replicate (updateWith embedC onePow pActive sDemo [(1, 1), (2, 2)]).H.length
        (fftS embedC (zeroR (2 * sDemo.blockSize))) ∧
    (updateWith embedC onePow pActive sDemo [(1, 1), (2, 2)]).overlap =
      zeroR sDemo.blockSize :=
  update_resets_state embedC onePow pActive sDemo
    (updateWith embedC onePow pActive sDemo [(1, 1), (2, 2)]) rfl

/-- A fixture impulse for closed evaluations. -/
def impW : StereoR := [(1, 1)]

/-- C3: for every impulse of length `L` and every decay in the parameter's
range, shaping computes `fadeStart = ⌊decay * L⌋` and
`fadeStop = min L (fadeStart + ⌊0.020 * sampleRate⌋)`; when
`fadeStop > fadeStart` it truncates the impulse to length `fadeStop` and
multiplies the sample at index `fadeStart + i` (for `i < flen`,
`flen = fadeStop - fadeStart`) of both channels by the fade gain
`0.1 ^ ((1 - i/flen) * 5)` — the power abstracted as `gpow`, the exponent
exact; `decay = 1` leaves the impulse unmodified at full length, and
`decay = 0` begins the fade at sample 0. -/
theorem shapeImpulse_spec (gpow : ℚ → ℚ) (SR : ℕ) (decay : ℚ) (h0 : StereoR)
    (hd0 : 0 ≤ decay) (hd1 : decay ≤ 1) :
    fadeStart decay h0.length = ⌊decay * (h0.length : ℚ)⌋ ∧
    fadeStop SR decay h0.length =
      min (h0.length : ℤ) (fadeStart decay h0.length + ⌊(2 : ℚ) / 100 * (SR : ℚ)⌋) ∧
    (decay = 1 → shapeImpulse gpow SR decay h0 = h0) ∧
    (decay = 0 → fadeStart decay h0.length = 0) ∧
    (fadeStart decay h0.length < fadeStop SR decay h0.length →
      (shapeImpulse gpow SR decay h0).length = (fadeStop SR decay h0.length).toNat ∧
      ∀ i : ℕ,
        (i : ℤ) < fadeStop SR decay h0.length - fadeStart decay h0.length →
        ∀ u : ℚ × ℚ, h0[(fadeStart decay h0.length).toNat + i]? = some u →
          (shapeImpulse gpow SR decay h0)[(fadeStart decay h0.length).toNat + i]? =
            some (u.1 * fadeGain gpow
                (fadeStop SR decay h0.length - fadeStart decay h0.length).toNat i,
              u.2 * fadeGain gpow
                (fadeStop SR decay h0.length - fadeStart decay h0.length).toNat i)) := by
  have hq : (0 : ℚ) ≤ decay * h0.length := mul_nonneg hd0 (Nat.cast_nonneg _)
  have hstart : fadeStart decay h0.length = ⌊decay * (h0.length : ℚ)⌋ := by
    rw [fadeStart, pyInt, if_pos hq]
  have hq2 : (0 : ℚ) ≤ (2 : ℚ) / 100 * SR := mul_nonneg (by norm_num) (Nat.cast_nonneg _)
  have hsampv : fadeSamples SR = ⌊(2 : ℚ) / 100 * (SR : ℚ)⌋ := by
    rw [fadeSamples, pyInt, if_pos hq2]
  have hstop : fadeStop SR decay h0.length =
      min (h0.length : ℤ) (fadeStart decay h0.length + ⌊(2 : ℚ) / 100 * (SR : ℚ)⌋) := by
    rw [fadeStop, hsampv]
  have hsamp0 : 0 ≤ fadeSamples SR := by
    rw [hsampv]; exact Int.floor_nonneg.mpr hq2
  have hfs0 : 0 ≤ fadeStart decay h0.length := by
    rw [hstart]; exact Int.floor_nonneg.mpr hq
  have hstopL : fadeStop SR decay h0.length ≤ (h0.length : ℤ) := min_le_left _ _
  refine ⟨hstart, hstop, ?_, ?_, ?_⟩
  · intro h1
    subst h1
    have ha : fadeStart 1 h0.length = (h0.length : ℤ) := by
      rw [fadeStart, pyInt, if_pos hq, one_mul, Int.floor_natCast]
    have hnf : ¬ 0 < fadeStop SR 1 h0.length - fadeStart 1 h0.length := by
      have hb : fadeStop SR 1 h0.length = (h0.length : ℤ) := by
        rw [fadeStop, ha]
        exact min_eq_left (by omega)
      omega
    simp only [shapeImpulse, if_neg hnf]
  · intro h1
    subst h1
    rw [fadeStart, zero_mul, pyInt, if_pos le_rfl, Int.floor_zero]
  · intro hlt
    have hcond : 0 < fadeStop SR decay h0.length - fadeStart decay h0.length := by omega
    have hftL : (fadeStop SR decay h0.length).toNat ≤ h0.length := by omega
    refine ⟨?_, ?_⟩
    · simp only [shapeImpulse, if_pos hcond, List.length_take, List.length_mapIdx]
      omega
    · intro i hi u hu
      have hj : (fadeStart decay h0.length).toNat + i <
          (fadeStop SR decay h0.length).toNat := by omega
      simp only [shapeImpulse, if_pos hcond]
      rw [List.getElem?_take, if_pos hj, List.getElem?_mapIdx, hu, Option.map_some']
      rw [if_pos ⟨Nat.le_add_right _ _, by omega⟩]
      simp only [Nat.add_sub_cancel_left]

theorem shapeImpulse_spec_witness :
    fadeStart 0 impW.length = ⌊(0 : ℚ) * (impW.length : ℚ)⌋ ∧
    fadeStop 50 0 impW.length =
      min (impW.length : ℤ) (fadeStart 0 impW.length + ⌊(2 : ℚ) / 100 * ((50 : ℕ) : ℚ)⌋) ∧
    ((0 : ℚ) = 1 → shapeImpulse onePow 50 0 impW = impW) ∧
    ((0 : ℚ) = 0 → fadeStart 0 impW.length = 0) ∧
    (fadeStart 0 impW.length < fadeStop 50 0 impW.length →
      (shapeImpulse onePow 50 0 impW).length = (fadeStop 50 0 impW.length).toNat ∧
      ∀ i : ℕ,
        (i : ℤ) < fadeStop 50 0 impW.length - fadeStart 0 impW.length →
        ∀ u : ℚ × ℚ, impW[(fadeStart 0 impW.length).toNat + i]? = some u →
          (shapeImpulse onePow 50 0 impW)[(fadeStart 0 impW.length).toNat + i]? =
            some (u.1 * fadeGain onePow
                (fadeStop 50 0 impW.length - fadeStart 0 impW.length).toNat i,
              u.2 * fadeGain onePow
                (fadeStop 50 0 impW.length - fadeStart 0 impW.length).toNat i)) :=
  shapeImpulse_spec onePow 50 0 impW le_rfl zero_le_one

/-- The abstract transforms of NumPy preserve array shapes; under that
assumption the stereo transform preserves the frame count. -/
theorem length_fftS (fft1 : List ℚ → List CQ)
    (hf : ∀ v, (fft1 v).length = v.length) (s : StereoR) :
    (fftS fft1 s).length = s.length := by
  simp [fftS, List.length_zip, hf]

/-- `np.roll` preserves the partition count. -/
theorem length_rollOne (X : List StereoC) : (rollOne X).length = X.length := by
  rw [rollOne]
  cases hX : X.getLast? with
  | none => rw [List.getLast?_eq_none_iff.mp hX]
  | some v =>
    have hne : X ≠ [] := by
      rintro rfl
      simp at hX
    have hpos : 0 < X.length := List.length_pos.mpr hne
    simp only [List.length_cons, List.length_dropLast]
    omega

/-- Every slot of the rolled ring was a slot of the original ring. -/
theorem mem_rollOne {b : StereoC} {X : List StereoC} (hb : b ∈ rollOne X) : b ∈ X := by
  rw [rollOne] at hb
  cases hX : X.getLast? with
  | none => rw [hX] at hb; simp at hb
  | some v =>
    rw [hX] at hb
    have hne : X ≠ [] := by
      rintro rfl
      simp at hX
    rcases List.mem_cons.mp hb with h | h
    · have h2 := List.getLast?_eq_getLast X hne
      rw [hX] at h2
      rw [h, Option.some_inj.mp h2]
      exact List.getLast_mem hne
    · exact List.dropLast_subset X h

/-- Inserting the newest frame keeps the partition count. -/
theorem length_ringShift (v : StereoC) (X : List StereoC) :
    (ringShift v X).length = X.length := by
  rw [ringShift, List.length_set, length_rollOne]

/-- Every slot of the shifted ring is the inserted frame or an old slot. -/
theorem mem_ringShift {b v : StereoC} {X : List StereoC} (hb : b ∈ ringShift v X) :
    b = v ∨ b ∈ X := by
  rcases List.mem_or_eq_of_mem_set hb with h | h
  · exact Or.inr (mem_rollOne h)
  · exact Or.inl h

/-- After `update`, every partition of the chopped impulse holds exactly
`2 * blockSize` frames. -/
theorem length_chop (B : ℕ) (hp : StereoR) (k : ℕ) (hk : (k + 1) * B ≤ hp.length) :
    (chop B hp k).length = 2 * B := by
  have h1 : B ≤ hp.length - k * B := by
    have : (k + 1) * B = k * B + B := by rw [Nat.succ_mul]
    omega
  simp only [chop, List.length_append, List.length_take, List.length_drop, zeroR,
    List.length_replicate]
  omega

/-- A list whose members all have the same value under `f` maps to a
replicate. -/
theorem map_eq_replicate_of_mem {α : Type} (f : α → ℕ) (c : ℕ) (l : List α)
    (h : ∀ b ∈ l, f b = c) : l.map f = List.replicate l.length c := by
  have heq : (l.map f).length = l.length := List.length_map _ _
  rw [← heq]
  apply List.eq_replicate_of_mem
  intro m hm
  rcases List.mem_map.mp hm with ⟨b, hb, rfl⟩
  exact h b hb

/-- The rebuilt state of `updateWith` satisfies the shape invariant. -/
theorem shapeInv_updateWith (fft1 : List ℚ → List CQ) (gpow : ℚ → ℚ)
    (p : RParams) (s : RState) (h0 : StereoR)
    (hf : ∀ v, (fft1 v).length = v.length) :
    shapeInv (updateWith fft1 gpow p s h0) := by
  rcases Nat.eq_zero_or_pos s.blockSize with hB | hB
  · refine ⟨?_, ?_, ?_⟩
    · simp [sameShape, updateWith, hB, Nat.div_zero]
    · intro b hb
      simp [updateWith, hB, Nat.div_zero] at hb
    · intro b hb
      simp [updateWith, hB, Nat.div_zero] at hb
  · have hplen : (shapeImpulse gpow s.sampleRate p.decay h0 ++
        zeroR (padAmount s.blockSize (shapeImpulse gpow s.sampleRate p.decay h0).length)).length
        = s.blockSize * ((shapeImpulse gpow s.sampleRate p.decay h0).length / s.blockSize + 1) := by
      rw [List.length_append, zeroR, List.length_replicate, padded_eq_mul _ _ hB]
    have hchop : ∀ k, k < (shapeImpulse gpow s.sampleRate p.decay h0 ++
        zeroR (padAmount s.blockSize
          (shapeImpulse gpow s.sampleRate p.decay h0).length)).length / s.blockSize →
        (chop s.blockSize (shapeImpulse gpow s.sampleRate p.decay h0 ++
          zeroR (padAmount s.blockSize
            (shapeImpulse gpow s.sampleRate p.decay h0).length)) k).length =
          2 * s.blockSize := by
      intro k hk
      rw [hplen, Nat.mul_div_cancel_left _ hB] at hk
      apply length_chop
      rw [hplen]
      calc (k + 1) * s.blockSize
          ≤ ((shapeImpulse gpow s.sampleRate p.decay h0).length / s.blockSize + 1) *
            s.blockSize := Nat.mul_le_mul_right _ hk
      _ = s.blockSize *
            ((shapeImpulse gpow s.sampleRate p.decay h0).length / s.blockSize + 1) :=
        Nat.mul_comm _ _
    have hlen : ∀ b ∈ (updateWith fft1 gpow p s h0).X, b.length = 2 * s.blockSize := by
      intro b hb
      simp only [updateWith] at hb
      have h2 := (List.mem_replicate.mp hb).2
      rw [h2, length_fftS fft1 hf, zeroR, List.length_replicate]
    have hparts : ∀ b ∈ (updateWith fft1 gpow p s h0).h, b.length = 2 * s.blockSize := by
      intro b hb
      simp only [updateWith] at hb
      rcases List.mem_map.mp hb with ⟨k, hk, rfl⟩
      exact hchop k (List.mem_range.mp hk)
    have hH : ∀ b ∈ (updateWith fft1 gpow p s h0).H, b.length = 2 * s.blockSize := by
      intro b hb
      have hmap : (updateWith fft1 gpow p s h0).H =
          (updateWith fft1 gpow p s h0).h.map (fftS fft1) := by
        simp [updateWith]
      rw [hmap] at hb
      rcases List.mem_map.mp hb with ⟨part, hpart, rfl⟩
      rw [length_fftS fft1 hf]
      exact hparts part hpart
    refine ⟨?_, hlen, hH⟩
    have hcount : (updateWith fft1 gpow p s h0).X.length =
        (updateWith fft1 gpow p s h0).H.length := by
      simp [updateWith]
    rw [sameShape, map_eq_replicate_of_mem _ _ _ hlen, map_eq_replicate_of_mem _ _ _ hH,
      hcount]

/-- A `process` call preserves the shape invariant (given a correctly sized
input block on the active path). -/
theorem shapeInv_process (fft1 : List ℚ → List CQ) (ifft1 : List CQ → List CQ)
    (p : RParams) (s : RState) (x : InBlock)
    (hf : ∀ v, (fft1 v).length = v.length)
    (hinv : shapeInv s)
    (hx : p.bypass = false → (normalize x).length = s.blockSize) :
    shapeInv (process fft1 ifft1 p s x).2 := by
  obtain ⟨hsame, hX2B, hH2B⟩ := hinv
  cases hb : p.bypass with
  | true =>
    have hpass : process fft1 ifft1 p s x = (x, s) := by simp [process, hb]
    rw [hpass]
    exact ⟨hsame, hX2B, hH2B⟩
  | false =>
    have hxn := hx hb
    have hstep : (process fft1 ifft1 p s x).2 =
        { s with
          X := ringShift (fftS fft1 (normalize x ++ zeroR s.blockSize)) s.X
          overlap := (reS (ifftS ifft1 (accum s.blockSize
              (ringShift (fftS fft1 (normalize x ++ zeroR s.blockSize)) s.X)
              s.H))).drop s.blockSize } := by
      simp [process, hb]
    rw [hstep]
    have hv : (fftS fft1 (normalize x ++ zeroR s.blockSize)).length = 2 * s.blockSize := by
      rw [length_fftS fft1 hf, List.length_append, hxn, zeroR, List.length_replicate,
        two_mul]
    have hXlen : ∀ b ∈ ringShift (fftS fft1 (normalize x ++ zeroR s.blockSize)) s.X,
        b.length = 2 * s.blockSize := by
      intro b hb2
      rcases mem_ringShift hb2 with h | h
      · rw [h]; exact hv
      · exact hX2B b h
    have hcount : s.X.length = s.H.length := by
      have h2 := congrArg List.length hsame
      simpa using h2
    refine ⟨?_, hXlen, hH2B⟩
    show (ringShift (fftS fft1 (normalize x ++ zeroR s.blockSize)) s.X).map List.length =
      s.H.map List.length
    rw [map_eq_replicate_of_mem _ _ _ hXlen, map_eq_replicate_of_mem _ _ _ hH2B,
      length_ringShift, hcount]

/-- A fixture state as produced by `load` at construction. -/
def sLoaded : RState := ⟨1, 44100, [("sm-room", normSamples [(1, 1)])], [], [], [], []⟩

/-- C4: after construction, after every `update` and after every `process`
call, the history ring has exactly the same shape as the filter bank — the
same partition count and the same bin count (`2 * blockSize`) in every slot —
so the accumulation never pairs the filter bank with a mismatched-size history
ring. -/
theorem conv_shape_invariant (fft1 : List ℚ → List CQ) (ifft1 : List CQ → List CQ)
    (gpow : ℚ → ℚ) (readFile : String → ℕ × List (ℤ × ℤ)) (p : RParams)
    (B SR : ℕ) (options : List String) (sc su s0 s : RState) (x : InBlock)
    (hf : ∀ v, (fft1 v).length = v.length)
    (hcon : construct fft1 gpow readFile p B SR options = some sc)
    (hupd : update fft1 gpow p s0 = some su)
    (hinv : shapeInv s)
    (hx : p.bypass = false → (normalize x).length = s.blockSize) :
    shapeInv sc ∧ shapeInv su ∧ shapeInv (process fft1 ifft1 p s x).2 := by
  refine ⟨?_, ?_, shapeInv_process fft1 ifft1 p s x hf hinv hx⟩
  · rw [construct] at hcon
    rcases Option.bind_eq_some.mp hcon with ⟨s1, -, hu1⟩
    rcases Option.map_eq_some'.mp hu1 with ⟨h1, -, rfl⟩
    exact shapeInv_updateWith fft1 gpow p s1 h1 hf
  · rcases Option.map_eq_some'.mp hupd with ⟨h1, -, rfl⟩
    exact shapeInv_updateWith fft1 gpow p s0 h1 hf

theorem conv_shape_invariant_witness :
    shapeInv (updateWith embedC onePow pActive sLoaded (normSamples [(1, 1)])) ∧
    shapeInv (updateWith embedC onePow pActive sDemo [(1, 1), (2, 2)]) ∧
    shapeInv (process embedC idC pActive sDemo (InBlock.mono [3])).2 :=
  conv_shape_invariant embedC idC onePow demoFiles pActive 1 44100 ["sm-room"]
    (updateWith embedC onePow pActive sLoaded (normSamples [(1, 1)]))
    (updateWith embedC onePow pActive sDemo [(1, 1), (2, 2)]) sDemo sDemo
    (InBlock.mono [3])
    (fun v => by simp [embedC]) rfl rfl
    ⟨rfl, fun b hb => by simp [sDemo] at hb, fun b hb => by simp [sDemo] at hb⟩
    (fun _ => rfl)

end PyMixConsole
